import Mathlib

/-!
# Verification of the SOI crossing / closest-approach detector

Shallow embedding of `src/draft_examples/try_3.py` (the sphere-of-influence
crossing and closest-approach detector for a potentially hazardous asteroid
relative to Earth).

The external SPICE/scipy capabilities (`spice.conics`, `spice.spkgeo`,
`spice.vnorm`, `spice.oscelt`, `scipy.optimize.brentq`) are out of scope per
the specification (treated as a supplied Ephemeris/Orbit service with a fixed
contract), so they are modelled as fields of an abstract `Ephem` structure.
Ephemeris times and distances are modelled as rationals; the Python `for i in
range(max_iter)` loops become fuelled recursion; the `for/else` raise becomes
an `Except` error value.  Diagnostic `print` calls are advisory only (per the
spec) and are not modelled.
-/

/-- A 3-component Cartesian vector (position or velocity part of a SPICE
state vector). -/
structure Vec3 where
  x : ℚ
  y : ℚ
  z : ℚ
deriving DecidableEq

/-- A 6-component SPICE state vector: position and velocity parts.  The code
only ever takes norms of the first three components (`vec[:3]`). -/
structure Vec6 where
  pos : Vec3
  vel : Vec3
deriving DecidableEq

/-- Componentwise subtraction of 3-vectors. -/
def Vec3.sub (a b : Vec3) : Vec3 := ⟨a.x - b.x, a.y - b.y, a.z - b.z⟩

/-- Componentwise subtraction of 6-component state vectors
(`pha_vec - earth_vec` in the source). -/
def Vec6.sub (a b : Vec6) : Vec6 := ⟨a.pos.sub b.pos, a.vel.sub b.vel⟩

/-- The external Ephemeris/Orbit service consumed by `try_3.py`, abstracted
over the (opaque) type `El` of orbital-element sets:

* `conics el t`   models `spice.conics(el, t)`;
* `spkgeoEarth t` models the state part of `spice.spkgeo(EARTH_ID, t,
  "ECLIPJ2000", SUN_ID)` (Earth relative to the Sun; the light-time output is
  discarded by the source);
* `vnorm v`       models `spice.vnorm(v)` on a 3-vector;
* `oscelt s t mu` models `spice.oscelt(s, t, mu)`;
* `brentq f a b`  models `scipy.optimize.brentq(f, a, b)`. -/
structure Ephem (El : Type) where
  conics : El → ℚ → Vec6
  spkgeoEarth : ℚ → Vec6
  vnorm : Vec3 → ℚ
  oscelt : Vec6 → ℚ → ℚ → El
  brentq : (ℚ → ℚ) → ℚ → ℚ → ℚ

/-- `GM_EARTH = 398600.4418` from the source. -/
def GM_EARTH : ℚ := 398600.4418

/-- `distance_from_earth(t, pha_elements)` from the source: position of the
PHA from `spice.conics`, minus Earth's heliocentric state from `spice.spkgeo`,
then `spice.vnorm` of the first three components. -/
def distance_from_earth (E : Ephem El) (t : ℚ) (el : El) : ℚ :=
  E.vnorm ((E.conics el t).sub (E.spkgeoEarth t)).pos

/-- The distance oracle as a function of time, for a fixed element set
(the function the scanning loops sample). -/
def dfeFun (E : Ephem El) (el : El) : ℚ → ℚ :=
  fun t => distance_from_earth E t el

/-- Modelled from the spec (§4.1 Distance Oracle, `frame = EarthCentered`
case): "the PHA position already represents PHA-relative-to-Earth, so the
oracle returns its norm directly." This definition follows the spec's words
(no subtraction of Earth's heliocentric position) and is compared against the
source's `distance_from_earth` in the C1 analysis. -/
def distance_earthCentered (E : Ephem El) (t : ℚ) (el : El) : ℚ :=
  E.vnorm (E.conics el t).pos

/-- `quadratic_approximation(t1, d1, t2, d2, t3, d3)` from the source: shift
the three times by their mean, fit the unique parabola `a*x^2 + b*x + c`
through the three shifted points, and return the vertex `-b/(2a)` shifted
back.  `np.polyfit(ts_shift, ds, 2)` is a degree-2 least-squares fit, which
for three points with distinct abscissae coincides with exact quadratic
interpolation; the interpolant's coefficients are written here in divided
difference form.  (For coincident abscissae the source's `polyfit` has no
well-defined answer; the caller never invokes it that way, since window times
are strictly increasing.) -/
def quadratic_approximation (t1 d1 t2 d2 t3 d3 : ℚ) : ℚ :=
  let m := (t1 + t2 + t3) / 3
  let x1 := t1 - m
  let x2 := t2 - m
  let x3 := t3 - m
  let a := ((d3 - d2) / (x3 - x2) - (d2 - d1) / (x2 - x1)) / (x3 - x1)
  let b := (d2 - d1) / (x2 - x1) - a * (x1 + x2)
  let t_min_local := -b / (2 * a)
  t_min_local + m

/-- Phase 1 / entry scan loop from the source (`for i in range(max_iter):
dist = ...; if dist <= soi: ... break; dt_et += step` with the `else:` raise
represented by `none`): returns the first sampled time whose distance is
`≤ soi`, or `none` if the iteration budget is exhausted. -/
def entryScanT (d : ℚ → ℚ) (soi step : ℚ) : ℕ → ℚ → Option ℚ
  | 0, _ => none
  | fuel + 1, t => if d t ≤ soi then some t else entryScanT d soi step fuel (t + step)

/-- Phase 4 / exit scan loop from the source (`if dist >= soi: ... break`);
note the source's exit loop has no `else:` clause, so budget exhaustion just
falls through — represented by `none` here and handled by the caller. -/
def exitScanT (d : ℚ → ℚ) (soi step : ℚ) : ℕ → ℚ → Option ℚ
  | 0, _ => none
  | fuel + 1, t => if soi ≤ d t then some t else exitScanT d soi step fuel (t + step)

/-- Instrumentation of the entry scan: the number of `distance_from_earth`
evaluations the entry loop performs (one per iteration, stopping at the
first triggering sample). -/
def entryScanCalls (d : ℚ → ℚ) (soi step : ℚ) : ℕ → ℚ → ℕ
  | 0, _ => 0
  | fuel + 1, t => if d t ≤ soi then 1 else 1 + entryScanCalls d soi step fuel (t + step)

/-- The local scan variables of the SOI-interior loop (phase 3 of the
source): current ephemeris time `dt_et`, current `step`, the 3-point
`bracket` window, and the running fallback minimum `min_distance` /
`min_et`.  `np.inf` is `⊤ : WithTop ℚ` and the initial `min_et = None` is
`none`. -/
structure IntState where
  t : ℚ
  step : ℚ
  bracket : List (ℚ × ℚ)
  minD : WithTop ℚ
  minEt : Option ℚ
deriving DecidableEq

/-- State at entry to the interior scan: `dt_et = soi_crossings[0]`,
`step = 1`, `bracket = []`, `min_distance = np.inf`, `min_et = None`. -/
def initState (te : ℚ) : IntState := ⟨te, 1, [], ⊤, none⟩

/-- The tail of an interior-scan iteration that did not `break`: store the
(possibly popped) bracket, fold the current sample into the running fallback
minimum (`if earth_dist < min_distance: ...`), and advance `dt_et += step`. -/
def fallbackUpd (s : IntState) (ed : ℚ) (br : List (ℚ × ℚ)) : IntState :=
  { t := s.t + s.step, step := s.step, bracket := br,
    minD := if (ed : WithTop ℚ) < s.minD then (ed : WithTop ℚ) else s.minD,
    minEt := if (ed : WithTop ℚ) < s.minD then some s.t else s.minEt }

/-- One iteration of the interior-scan loop body (source lines 70–95).
Returns the successor state and whether the iteration executed `break`
(three-point strict local minimum confirmed).  On `break`: the fitted vertex
time and the re-evaluated distance there overwrite `min_et`/`min_distance`,
`dt_et` jumps to `t_min + 10` and `step` becomes `10`; the loop-end fallback
update and time advance are skipped. -/
def interiorIter (d : ℚ → ℚ) (s : IntState) : IntState × Bool :=
  let ed := d s.t
  let br := s.bracket ++ [(s.t, ed)]
  match br with
  | [(t1, d1), (t2, d2), (t3, d3)] =>
    if d2 < d1 ∧ d2 < d3 then
      let tmin := quadratic_approximation t1 d1 t2 d2 t3 d3
      let dmin := d tmin
      (⟨tmin + 10, 10, br, (dmin : WithTop ℚ), some tmin⟩, true)
    else
      (fallbackUpd s ed br.tail, false)
  | _ => (fallbackUpd s ed br, false)

/-- Phase 3 / the SOI-interior scan loop (`for i in range(max_iter)` with a
`break` on a confirmed local minimum and silent fall-through on budget
exhaustion). -/
def interiorLoop (d : ℚ → ℚ) : ℕ → IntState → IntState
  | 0, s => s
  | fuel + 1, s =>
    let r := interiorIter d s
    if r.2 then r.1 else interiorLoop d fuel r.1

/-- Phase 2 of the source: the PHA's Earth-relative element set, derived at
the entry time via `spice.oscelt(spice.conics(pha_el, t_entry), t_entry,
GM_EARTH)`. -/
def elWrtEarth (E : Ephem El) (el : El) (te : ℚ) : El :=
  E.oscelt (E.conics el te) te GM_EARTH

/-- The distance sampled by the interior scan (source lines 70–71):
`spice.vnorm(spice.conics(pha_el_wrt_earth, dt_et)[:3])` — the norm of the
element-propagated position, with no Earth subtraction. -/
def interiorDist (E : Ephem El) (elE : El) : ℚ → ℚ :=
  fun t => E.vnorm (E.conics elE t).pos

/-- The two `brentq` refinement calls of the source: bracketed root-finding
for `distance_from_earth(t, el) - soi = 0` over `[tstop - step, tstop]`. -/
def refineCrossing (E : Ephem El) (el : El) (soi step tstop : ℚ) : ℚ :=
  E.brentq (fun t => distance_from_earth E t el - soi) (tstop - step) tstop

/-- Phases 2–3 of the source composed: derive the Earth-relative element set
at the refined entry time `te`, then run the SOI-interior scan from `te` with
the full iteration budget. -/
def interiorFinal (E : Ephem El) (el : El) (fuel : ℕ) (te : ℚ) : IntState :=
  interiorLoop (interiorDist E (elWrtEarth E el te)) fuel (initState te)

/-- `calculate_crossings(pha_el, dt_et_start, soi, max_iter)` from the
source.  Returns `(soi_crossings, min_et, min_distance)` on normal return and
the `RuntimeError` message as an `Except.error` when the entry scan exhausts
its budget.  Phase order, step sizes (20 coarse entry / 1 interior / 10 after
a confirmed minimum), element-set handoff and the absence of an error on exit
scan exhaustion all mirror the source. -/
def calculate_crossings (E : Ephem El) (pha_el : El) (dt_et_start soi : ℚ)
    (max_iter : ℕ) : Except String (List ℚ × Option ℚ × WithTop ℚ) :=
  match entryScanT (dfeFun E pha_el) soi 20 max_iter dt_et_start with
  | none => .error "First SOI crossing not found"
  | some ts =>
    let t_entry := refineCrossing E pha_el soi 20 ts
    let s := interiorFinal E pha_el max_iter t_entry
    match exitScanT (dfeFun E (elWrtEarth E pha_el t_entry)) soi s.step max_iter s.t with
    | none => .ok ([t_entry], s.minEt, s.minD)
    | some ts2 =>
      .ok ([t_entry, refineCrossing E (elWrtEarth E pha_el t_entry) soi s.step ts2],
        s.minEt, s.minD)

/-! ## Closed-form characterization of the interior scan

While no three-point local minimum has been confirmed, the interior scan
keeps `step = 1`, samples iteration `i` at time `te + i`, and its state is
given in closed form by `stateAfter`. -/

/-- `detIterB d te i = true` iff iteration `i` (0-indexed) of the interior
scan started at `te` (step 1) confirms a three-point strict local minimum:
at iteration `i ≥ 2` the freshly appended window holds the samples of
iterations `i-2`, `i-1`, `i`, and the test is `d2 < d1 and d2 < d3`. -/
def detIterB (d : ℚ → ℚ) (te : ℚ) : ℕ → Bool
  | 0 => false
  | 1 => false
  | j + 2 =>
    decide (d (te + (j : ℚ) + 1) < d (te + (j : ℚ)) ∧
            d (te + (j : ℚ) + 1) < d (te + (j : ℚ) + 2))

/-- Running fallback minimum (`min_distance`, `min_et`) after folding in the
first `k` interior samples (strict `<` update, so ties keep the earliest
sample). -/
def runMin (d : ℚ → ℚ) (te : ℚ) : ℕ → WithTop ℚ × Option ℚ
  | 0 => (⊤, none)
  | k + 1 =>
    let p := runMin d te k
    let ed := d (te + (k : ℚ))
    if (ed : WithTop ℚ) < p.1 then ((ed : WithTop ℚ), some (te + (k : ℚ))) else p

/-- The `bracket` window contents at entry to iteration `k` of the interior
scan (no detection so far): empty, the first sample, or the two most recent
samples. -/
def windowPrev (d : ℚ → ℚ) (te : ℚ) : ℕ → List (ℚ × ℚ)
  | 0 => []
  | 1 => [(te, d te)]
  | j + 2 => [(te + (j : ℚ), d (te + (j : ℚ))),
              (te + (j : ℚ) + 1, d (te + (j : ℚ) + 1))]

/-- Closed form of the interior-scan state at entry to iteration `k`, valid
while no local minimum has been detected. -/
def stateAfter (d : ℚ → ℚ) (te : ℚ) (k : ℕ) : IntState :=
  ⟨te + (k : ℚ), 1, windowPrev d te k, (runMin d te k).1, (runMin d te k).2⟩

/-- The fitted vertex time produced by a detection at iteration `j + 2`
(window samples at `te+j`, `te+j+1`, `te+j+2`). -/
def detVertex (d : ℚ → ℚ) (te : ℚ) (j : ℕ) : ℚ :=
  quadratic_approximation (te + (j : ℚ)) (d (te + (j : ℚ)))
    (te + (j : ℚ) + 1) (d (te + (j : ℚ) + 1))
    (te + (j : ℚ) + 2) (d (te + (j : ℚ) + 2))

theorem stateAfter_zero (d : ℚ → ℚ) (te : ℚ) : stateAfter d te 0 = initState te := by
  simp [stateAfter, initState, windowPrev, runMin]

theorem runMin_le (d : ℚ → ℚ) (te : ℚ) :
    ∀ k j, j < k → (runMin d te k).1 ≤ (d (te + (j : ℚ)) : WithTop ℚ) := by
  intro k
  induction k with
  | zero => intro j hj; omega
  | succ k ih =>
    intro j hj
    by_cases hjk : j < k
    · calc (runMin d te (k+1)).1 ≤ (runMin d te k).1 := by
            simp only [runMin]
            split
            · exact le_of_lt (by assumption)
            · exact le_rfl
        _ ≤ (d (te + (j : ℚ)) : WithTop ℚ) := ih j hjk
    · have hjk' : j = k := by omega
      subst hjk'
      simp only [runMin]
      split
      · exact le_rfl
      · exact le_of_not_lt (by assumption)

theorem runMin_achieved (d : ℚ → ℚ) (te : ℚ) :
    ∀ k, 0 < k → ∃ j, j < k ∧ (runMin d te k).1 = (d (te + (j : ℚ)) : WithTop ℚ) ∧
      (runMin d te k).2 = some (te + (j : ℚ)) := by
  intro k
  induction k with
  | zero => intro h; omega
  | succ k ih =>
    intro _
    simp only [runMin]
    split
    · exact ⟨k, by omega, rfl, rfl⟩
    · rcases Nat.eq_zero_or_pos k with hk | hk
      · subst hk
        simp [runMin, WithTop.coe_lt_top] at *
      · obtain ⟨j, hj, h1, h2⟩ := ih hk
        exact ⟨j, by omega, h1, h2⟩

theorem interiorIter_nodet (d : ℚ → ℚ) (te : ℚ) :
    ∀ k, detIterB d te k = false →
      interiorIter d (stateAfter d te k) = (stateAfter d te (k + 1), false) := by
  intro k hk
  match k with
  | 0 =>
    simp [interiorIter, stateAfter, windowPrev, runMin, fallbackUpd]
  | 1 =>
    by_cases h : d (te + 1) < d te <;>
      simp [interiorIter, stateAfter, windowPrev, runMin, fallbackUpd, h] <;> ring
  | j + 2 =>
    simp only [detIterB, decide_eq_false_iff_not] at hk
    have hidx : j + 2 + 1 = (j + 1) + 2 := by omega
    rw [hidx]
    have e1 : te + ((j:ℚ) + 1) = te + (j:ℚ) + 1 := by ring
    have e2 : te + ((j:ℚ) + 2) = te + (j:ℚ) + 2 := by ring
    have e3 : te + (j:ℚ) + 1 + 1 = te + (j:ℚ) + 2 := by ring
    have e4 : te + ((j:ℚ) + 1 + 2) = te + (j:ℚ) + 2 + 1 := by ring
    have e5 : te + ((j:ℚ) + 1 + 1) = te + (j:ℚ) + 2 := by ring
    simp [interiorIter, stateAfter, windowPrev, runMin, fallbackUpd, e1, e2, e3, e4, e5, hk]
    split_ifs <;> simp

theorem interiorLoop_shift (d : ℚ → ℚ) (te : ℚ) :
    ∀ k fuel, (∀ i, i < k → detIterB d te i = false) → k ≤ fuel →
      interiorLoop d fuel (initState te) = interiorLoop d (fuel - k) (stateAfter d te k) := by
  intro k
  induction k with
  | zero => intro fuel _ _; rw [stateAfter_zero]; rfl
  | succ k ih =>
    intro fuel h hk
    rw [ih fuel (fun i hi => h i (by omega)) (by omega)]
    have hf : fuel - k = (fuel - (k + 1)) + 1 := by omega
    rw [hf]
    have hstep := interiorIter_nodet d te k (h k (by omega))
    simp [interiorLoop, hstep]

theorem interiorLoop_nodet_full (d : ℚ → ℚ) (te : ℚ) (fuel : ℕ)
    (h : ∀ i, i < fuel → detIterB d te i = false) :
    interiorLoop d fuel (initState te) = stateAfter d te fuel := by
  rw [interiorLoop_shift d te fuel fuel h le_rfl]
  simp [interiorLoop]

theorem interiorIter_det (d : ℚ → ℚ) (te : ℚ) (j : ℕ)
    (h : detIterB d te (j + 2) = true) :
    interiorIter d (stateAfter d te (j + 2)) =
      (⟨detVertex d te j + 10, 10,
        [(te + (j : ℚ), d (te + (j : ℚ))), (te + (j : ℚ) + 1, d (te + (j : ℚ) + 1)),
         (te + (j : ℚ) + 2, d (te + (j : ℚ) + 2))],
        (d (detVertex d te j) : WithTop ℚ), some (detVertex d te j)⟩, true) := by
  simp only [detIterB, decide_eq_true_eq] at h
  have e2 : te + ((j : ℚ) + 2) = te + (j : ℚ) + 2 := by ring
  simp [interiorIter, stateAfter, windowPrev, detVertex, e2, h]

theorem interiorLoop_det (d : ℚ → ℚ) (te : ℚ) (j fuel : ℕ)
    (hpre : ∀ i, i < j + 2 → detIterB d te i = false)
    (hdet : detIterB d te (j + 2) = true) (hlt : j + 2 < fuel) :
    interiorLoop d fuel (initState te) =
      ⟨detVertex d te j + 10, 10,
       [(te + (j : ℚ), d (te + (j : ℚ))), (te + (j : ℚ) + 1, d (te + (j : ℚ) + 1)),
        (te + (j : ℚ) + 2, d (te + (j : ℚ) + 2))],
       (d (detVertex d te j) : WithTop ℚ), some (detVertex d te j)⟩ := by
  rw [interiorLoop_shift d te (j + 2) fuel hpre (by omega)]
  have hf : fuel - (j + 2) = (fuel - (j + 3)) + 1 := by omega
  rw [hf]
  simp [interiorLoop, interiorIter_det d te j hdet]

/-- The fitted vertex of a parabola through three evenly spaced samples whose
middle value is a strict minimum lies strictly to the right of the first
sample time. -/
theorem qa_vertex_gt (t1 d1 d2 d3 h : ℚ) (hh : 0 < h) (hd1 : d2 < d1) (hd3 : d2 < d3) :
    t1 < quadratic_approximation t1 d1 (t1 + h) d2 (t1 + 2*h) d3 := by
  simp only [quadratic_approximation]
  have hm : (t1 + (t1 + h) + (t1 + 2*h)) / 3 = t1 + h := by ring
  rw [hm]
  have hx21 : t1 + h - (t1 + h) - (t1 - (t1 + h)) = h := by ring
  have hx32 : t1 + 2*h - (t1 + h) - (t1 + h - (t1 + h)) = h := by ring
  have hx31 : t1 + 2*h - (t1 + h) - (t1 - (t1 + h)) = 2*h := by ring
  have hx12s : t1 - (t1 + h) + (t1 + h - (t1 + h)) = -h := by ring
  rw [hx21, hx32, hx31, hx12s]
  have hh0 : h ≠ 0 := ne_of_gt hh
  have hD : 0 < d1 - 2*d2 + d3 := by linarith
  have hD0 : d1 - 2*d2 + d3 ≠ 0 := ne_of_gt hD
  have ha : ((d3 - d2)/h - (d2 - d1)/h)/(2*h) = (d1 - 2*d2 + d3)/(2*(h*h)) := by
    rw [div_sub_div_same, div_div]
    rw [show d3 - d2 - (d2 - d1) = d1 - 2*d2 + d3 from by ring,
        show h*(2*h) = 2*(h*h) from by ring]
  rw [ha]
  have hden : 2*((d1 - 2*d2 + d3)/(2*(h*h))) = (d1 - 2*d2 + d3)/(h*h) := by
    rw [eq_div_iff (mul_ne_zero hh0 hh0)]
    field_simp
    ring
  rw [hden, div_div_eq_mul_div]
  have hfinal : -((d2 - d1)/h - (d1 - 2*d2 + d3)/(2*(h*h)) * -h) * (h*h)
        / (d1 - 2*d2 + d3) + (t1 + h)
      = t1 + h/2 + h*(d1 - d2)/(d1 - 2*d2 + d3) := by
    field_simp
    ring
  rw [hfinal]
  have hpos : 0 < h*(d1 - d2)/(d1 - 2*d2 + d3) :=
    div_pos (mul_pos hh (by linarith)) hD
  linarith

/-- Entry-scan characterization: a successful entry scan stops at the first
sampled time (samples at `t0 + i*step`) whose distance is `≤ soi`. -/
theorem entryScanT_first (d : ℚ → ℚ) (soi step : ℚ) :
    ∀ fuel t0 ts, entryScanT d soi step fuel t0 = some ts →
      ∃ i, i < fuel ∧ ts = t0 + (i : ℚ) * step ∧ d ts ≤ soi ∧
        ∀ j, j < i → soi < d (t0 + (j : ℚ) * step) := by
  intro fuel
  induction fuel with
  | zero => intro t0 ts hts; simp [entryScanT] at hts
  | succ fuel ih =>
    intro t0 ts hts
    by_cases hd : d t0 ≤ soi
    · refine ⟨0, by omega, ?_, ?_, ?_⟩
      · simp [entryScanT, hd] at hts
        simp [hts.symm]
      · simp [entryScanT, hd] at hts
        rw [← hts]; exact hd
      · intro j hj; omega
    · have hts' : entryScanT d soi step fuel (t0 + step) = some ts := by
        simpa [entryScanT, hd] using hts
      obtain ⟨i, hi, heq, hle, hfirst⟩ := ih (t0 + step) ts hts'
      refine ⟨i + 1, by omega, ?_, hle, ?_⟩
      · rw [heq]; push_cast; ring
      · intro j hj
        match j with
        | 0 => simpa using lt_of_not_le hd
        | j' + 1 =>
          have := hfirst j' (by omega)
          push_cast
          rw [show t0 + ((j' : ℚ) + 1) * step = t0 + step + (j' : ℚ) * step from by ring]
          exact this

/-- Exit-scan characterization: a successful exit scan stops at the first
sampled time whose distance is `≥ soi`. -/
theorem exitScanT_first (d : ℚ → ℚ) (soi step : ℚ) :
    ∀ fuel t0 ts, exitScanT d soi step fuel t0 = some ts →
      ∃ i, i < fuel ∧ ts = t0 + (i : ℚ) * step ∧ soi ≤ d ts ∧
        ∀ j, j < i → d (t0 + (j : ℚ) * step) < soi := by
  intro fuel
  induction fuel with
  | zero => intro t0 ts hts; simp [exitScanT] at hts
  | succ fuel ih =>
    intro t0 ts hts
    by_cases hd : soi ≤ d t0
    · refine ⟨0, by omega, ?_, ?_, ?_⟩
      · simp [exitScanT, hd] at hts
        simp [hts.symm]
      · simp [exitScanT, hd] at hts
        rw [← hts]; exact hd
      · intro j hj; omega
    · have hts' : exitScanT d soi step fuel (t0 + step) = some ts := by
        simpa [exitScanT, hd] using hts
      obtain ⟨i, hi, heq, hle, hfirst⟩ := ih (t0 + step) ts hts'
      refine ⟨i + 1, by omega, ?_, hle, ?_⟩
      · rw [heq]; push_cast; ring
      · intro j hj
        match j with
        | 0 => simpa using lt_of_not_le hd
        | j' + 1 =>
          have := hfirst j' (by omega)
          push_cast
          rw [show t0 + ((j' : ℚ) + 1) * step = t0 + step + (j' : ℚ) * step from by ring]
          exact this

/-- A successful exit scan stops no earlier than its starting time (the scan
only moves forward). -/
theorem exitScanT_ge (d : ℚ → ℚ) (soi step : ℚ) (hstep : 0 ≤ step) :
    ∀ fuel t0 ts, exitScanT d soi step fuel t0 = some ts → t0 ≤ ts := by
  intro fuel
  induction fuel with
  | zero => intro t0 ts hts; simp [exitScanT] at hts
  | succ fuel ih =>
    intro t0 ts hts
    by_cases hd : soi ≤ d t0
    · simp [exitScanT, hd] at hts
      linarith [hts.le]
    · have hts' : exitScanT d soi step fuel (t0 + step) = some ts := by
        simpa [exitScanT, hd] using hts
      have := ih (t0 + step) ts hts'
      linarith

/-- Invariant of the interior-scan state used for the event-ordering
analysis: positive step, current time at or after the entry time, any
recorded closest-approach time between `te` and `t - step`, and the window
holding at most two earlier samples spaced by `step` and ending at
`t - step`. -/
def IntInv (te : ℚ) (s : IntState) : Prop :=
  0 < s.step ∧ te ≤ s.t ∧
  (∀ ta, s.minEt = some ta → te ≤ ta ∧ ta + s.step ≤ s.t) ∧
  (s.bracket = [] ∨
   (∃ p : ℚ × ℚ, s.bracket = [p] ∧ p.1 = s.t - s.step ∧ te ≤ p.1) ∨
   (∃ p q : ℚ × ℚ, s.bracket = [p, q] ∧ q.1 = s.t - s.step ∧
      p.1 = s.t - 2 * s.step ∧ te ≤ p.1))

/-- The part of `IntInv` preserved by the `break` transition as well. -/
def IntInvW (te : ℚ) (s : IntState) : Prop :=
  0 < s.step ∧ (∀ ta, s.minEt = some ta → te ≤ ta ∧ ta + s.step ≤ s.t)

theorem IntInv.toW {te : ℚ} {s : IntState} (h : IntInv te s) : IntInvW te s :=
  ⟨h.1, h.2.2.1⟩

theorem fallbackUpd_inv (te : ℚ) (s : IntState) (ed : ℚ) (br : List (ℚ × ℚ))
    (hstep : 0 < s.step) (hts : te ≤ s.t)
    (hmin : ∀ ta, s.minEt = some ta → te ≤ ta ∧ ta + s.step ≤ s.t)
    (hbr : (∃ p : ℚ × ℚ, br = [p] ∧ p.1 = s.t ∧ te ≤ p.1) ∨
      (∃ p q : ℚ × ℚ, br = [p, q] ∧ q.1 = s.t ∧ p.1 = s.t - s.step ∧ te ≤ p.1)) :
    IntInv te (fallbackUpd s ed br) := by
  refine ⟨by simpa [fallbackUpd] using hstep, by simp [fallbackUpd]; linarith, ?_, ?_⟩
  · intro ta hta
    simp only [fallbackUpd] at hta
    split_ifs at hta with hc
    · cases hta
      constructor
      · exact hts
      · simp [fallbackUpd]
    · obtain ⟨h1, h2⟩ := hmin ta hta
      exact ⟨h1, by simp [fallbackUpd]; linarith⟩
  · rcases hbr with ⟨p, hbr, hp1, hpte⟩ | ⟨p, q, hbr, hq1, hp1, hpte⟩
    · refine Or.inr (Or.inl ⟨p, ?_, ?_, hpte⟩)
      · simpa [fallbackUpd] using hbr
      · simp [fallbackUpd, hp1]
    · refine Or.inr (Or.inr ⟨p, q, ?_, ?_, ?_, hpte⟩)
      · simpa [fallbackUpd] using hbr
      · simp [fallbackUpd, hq1]
      · simp [fallbackUpd, hp1]; ring

theorem interiorIter_inv (d : ℚ → ℚ) (te : ℚ) (s : IntState) (hs : IntInv te s) :
    IntInvW te (interiorIter d s).1 ∧
      ((interiorIter d s).2 = false → IntInv te (interiorIter d s).1) := by
  obtain ⟨hstep, hts, hmin, hbr⟩ := hs
  rcases hbr with hbr | ⟨p, hbr, hp1, hpte⟩ | ⟨p, q, hbr, hq1, hp1, hpte⟩
  · have hres : interiorIter d s = (fallbackUpd s (d s.t) [(s.t, d s.t)], false) := by
      simp [interiorIter, hbr]
    have hinv := fallbackUpd_inv te s (d s.t) [(s.t, d s.t)] hstep hts hmin
      (Or.inl ⟨(s.t, d s.t), rfl, rfl, hts⟩)
    rw [hres]
    exact ⟨hinv.toW, fun _ => hinv⟩
  · have hres : interiorIter d s = (fallbackUpd s (d s.t) [p, (s.t, d s.t)], false) := by
      simp [interiorIter, hbr]
    have hinv := fallbackUpd_inv te s (d s.t) [p, (s.t, d s.t)] hstep hts hmin
      (Or.inr ⟨p, (s.t, d s.t), rfl, rfl, by rw [hp1], hpte⟩)
    rw [hres]
    exact ⟨hinv.toW, fun _ => hinv⟩
  · obtain ⟨p1, p2⟩ := p
    obtain ⟨q1, q2⟩ := q
    simp only at hp1 hq1 hpte
    by_cases hdet : q2 < p2 ∧ q2 < d s.t
    · have hres : interiorIter d s =
          (⟨quadratic_approximation p1 p2 q1 q2 s.t (d s.t) + 10, 10,
            [(p1, p2), (q1, q2), (s.t, d s.t)],
            (d (quadratic_approximation p1 p2 q1 q2 s.t (d s.t)) : WithTop ℚ),
            some (quadratic_approximation p1 p2 q1 q2 s.t (d s.t))⟩, true) := by
        simp [interiorIter, hbr, hdet]
      rw [hres]
      have hv := qa_vertex_gt (s.t - 2 * s.step) p2 q2 (d s.t) s.step hstep hdet.1 hdet.2
      have e1 : s.t - 2 * s.step + s.step = q1 := by rw [hq1]; ring
      have e2 : s.t - 2 * s.step + 2 * s.step = s.t := by ring
      rw [e1, e2, ← hp1] at hv
      constructor
      · refine ⟨by norm_num, ?_⟩
        intro ta hta
        simp only [Option.some.injEq] at hta
        subst hta
        constructor
        · linarith
        · simp
      · intro hfalse
        simp at hfalse
    · have hres : interiorIter d s =
          (fallbackUpd s (d s.t) [(q1, q2), (s.t, d s.t)], false) := by
        simp [interiorIter, hbr, hdet]
      have hinv := fallbackUpd_inv te s (d s.t) [(q1, q2), (s.t, d s.t)] hstep hts hmin
        (Or.inr ⟨(q1, q2), (s.t, d s.t), rfl, rfl, by simpa using hq1, by
          simp only []
          rw [hq1]
          linarith⟩)
      rw [hres]
      exact ⟨hinv.toW, fun _ => hinv⟩

theorem interiorLoop_inv (d : ℚ → ℚ) (te : ℚ) :
    ∀ fuel s, IntInv te s → IntInvW te (interiorLoop d fuel s) := by
  intro fuel
  induction fuel with
  | zero => intro s hs; exact hs.toW
  | succ fuel ih =>
    intro s hs
    have h := interiorIter_inv d te s hs
    by_cases hr : (interiorIter d s).2
    · simpa [interiorLoop, hr] using h.1
    · have : interiorLoop d (fuel + 1) s = interiorLoop d fuel (interiorIter d s).1 := by
        simp [interiorLoop, hr]
      rw [this]
      exact ih _ (h.2 (by simpa using hr))

theorem initState_inv (te : ℚ) : IntInv te (initState te) := by
  refine ⟨by norm_num [initState], le_rfl, ?_, Or.inl rfl⟩
  intro ta hta
  simp [initState] at hta

/-! ## Concrete ephemeris instantiations

Small piecewise-rational ephemerides used to evaluate the pipeline on
concrete runs.  `brentqModel` mirrors `scipy.optimize.brentq`'s endpoint
handling (if `f` vanishes at an endpoint of the bracket, that endpoint is
returned); in every concrete run below the value it returns is an exact root
of the function it is given, consistent with a genuine bracketed
root-finder. -/

/-- A state vector along the x-axis. -/
def vec1 (x : ℚ) : Vec6 := ⟨⟨x, 0, 0⟩, ⟨0, 0, 0⟩⟩

/-- Concrete root-finder: returns an endpoint where the function vanishes
(as scipy's `brentq` does), otherwise the bracket midpoint. -/
def brentqModel (f : ℚ → ℚ) (a b : ℚ) : ℚ :=
  if f a = 0 then a else if f b = 0 then b else (a + b) / 2

/-- Taxicab norm: a genuine vector norm with rational values. -/
def vnormModel (v : Vec3) : ℚ := |v.x| + |v.y| + |v.z|

/-- Elements are `false` (the heliocentric PHA set) or `true` (the
Earth-relative set produced by `oscelt`). -/
def ephC3 : Ephem Bool :=
  ⟨fun el t => if el then vec1 (5 + t) else vec1 (5 - t),
   fun _ => vec1 (-5), vnormModel, fun _ _ _ => true, brentqModel⟩

/-- Ephemeris for the frame-confusion analysis: the Earth-relative position
is constant `(5,0,0)` (the PHA never approaches the SOI boundary in the
Earth-centered sense), while Earth's heliocentric position is `(-5,0,0)`. -/
def ephC1 : Ephem Bool :=
  ⟨fun el t => if el then vec1 5 else vec1 (5 - t),
   fun _ => vec1 (-5), vnormModel, fun _ _ _ => true, brentqModel⟩

/-- Ephemeris for the exit-exhaustion analysis: the Earth-relative distance
is constantly `5 < soi`, so the exit scan can never trigger. -/
def ephC2 : Ephem Bool :=
  ⟨fun el t => if el then vec1 5 else vec1 (10 - t),
   fun _ => vec1 0, vnormModel, fun _ _ _ => true, brentqModel⟩

/-- Case analysis of a run whose entry scan succeeded: either the exit scan
exhausts its budget (one crossing returned, no error), or it stops and the
refined exit time is appended. -/
theorem calculate_crossings_cases (El : Type) (E : Ephem El) (el : El) (t0 soi : ℚ)
    (fuel : ℕ) (ts1 : ℚ)
    (hscan : entryScanT (dfeFun E el) soi 20 fuel t0 = some ts1) :
    (calculate_crossings E el t0 soi fuel =
        .ok ([refineCrossing E el soi 20 ts1],
          (interiorFinal E el fuel (refineCrossing E el soi 20 ts1)).minEt,
          (interiorFinal E el fuel (refineCrossing E el soi 20 ts1)).minD) ∧
      exitScanT (dfeFun E (elWrtEarth E el (refineCrossing E el soi 20 ts1))) soi
        (interiorFinal E el fuel (refineCrossing E el soi 20 ts1)).step fuel
        (interiorFinal E el fuel (refineCrossing E el soi 20 ts1)).t = none) ∨
    (∃ ts2, exitScanT (dfeFun E (elWrtEarth E el (refineCrossing E el soi 20 ts1))) soi
        (interiorFinal E el fuel (refineCrossing E el soi 20 ts1)).step fuel
        (interiorFinal E el fuel (refineCrossing E el soi 20 ts1)).t = some ts2 ∧
      calculate_crossings E el t0 soi fuel =
        .ok ([refineCrossing E el soi 20 ts1,
              refineCrossing E (elWrtEarth E el (refineCrossing E el soi 20 ts1)) soi
                (interiorFinal E el fuel (refineCrossing E el soi 20 ts1)).step ts2],
          (interiorFinal E el fuel (refineCrossing E el soi 20 ts1)).minEt,
          (interiorFinal E el fuel (refineCrossing E el soi 20 ts1)).minD)) := by
  cases hexit : exitScanT (dfeFun E (elWrtEarth E el (refineCrossing E el soi 20 ts1))) soi
      (interiorFinal E el fuel (refineCrossing E el soi 20 ts1)).step fuel
      (interiorFinal E el fuel (refineCrossing E el soi 20 ts1)).t with
  | none =>
    exact Or.inl ⟨by simp [calculate_crossings, hscan, hexit], rfl⟩
  | some ts2 =>
    exact Or.inr ⟨ts2, rfl, by simp [calculate_crossings, hscan, hexit]⟩

/-- Inversion of a successful run: the entry scan succeeded, the returned
closest-approach data is exactly the interior-scan state's, and the crossing
list holds the refined entry time, plus the refined exit time when the exit
scan stopped. -/
theorem calculate_crossings_ok_inv (El : Type) (E : Ephem El) (el : El) (t0 soi : ℚ)
    (fuel : ℕ) (cs : List ℚ) (mE : Option ℚ) (mD : WithTop ℚ)
    (h : calculate_crossings E el t0 soi fuel = .ok (cs, mE, mD)) :
    ∃ ts1, entryScanT (dfeFun E el) soi 20 fuel t0 = some ts1 ∧
      mE = (interiorFinal E el fuel (refineCrossing E el soi 20 ts1)).minEt ∧
      mD = (interiorFinal E el fuel (refineCrossing E el soi 20 ts1)).minD ∧
      (cs = [refineCrossing E el soi 20 ts1] ∨
       ∃ ts2, exitScanT (dfeFun E (elWrtEarth E el (refineCrossing E el soi 20 ts1))) soi
           (interiorFinal E el fuel (refineCrossing E el soi 20 ts1)).step fuel
           (interiorFinal E el fuel (refineCrossing E el soi 20 ts1)).t = some ts2 ∧
         cs = [refineCrossing E el soi 20 ts1,
               refineCrossing E (elWrtEarth E el (refineCrossing E el soi 20 ts1)) soi
                 (interiorFinal E el fuel (refineCrossing E el soi 20 ts1)).step ts2]) := by
  cases hscan : entryScanT (dfeFun E el) soi 20 fuel t0 with
  | none => simp [calculate_crossings, hscan] at h
  | some ts1 =>
    refine ⟨ts1, rfl, ?_⟩
    rcases calculate_crossings_cases El E el t0 soi fuel ts1 hscan with ⟨hok, hex⟩ | ⟨ts2, hex, hok⟩
    · rw [hok] at h
      simp only [Except.ok.injEq, Prod.mk.injEq] at h
      exact ⟨h.2.1.symm, h.2.2.symm, Or.inl h.1.symm⟩
    · rw [hok] at h
      simp only [Except.ok.injEq, Prod.mk.injEq] at h
      exact ⟨h.2.1.symm, h.2.2.symm, Or.inr ⟨ts2, hex, h.1.symm⟩⟩

/-! ## Claim theorems -/

/-- C9: for every input with `max_iter = 0`, `calculate_crossings` raises the
"First SOI crossing not found" error; the result is the same for every
ephemeris and element set (in particular when the distance at the starting
time is at or below the SOI threshold), and the entry scan performs zero
distance-oracle evaluations. -/
theorem c9_zero_budget :
    (∀ (El : Type) (E : Ephem El) (el : El) (t0 soi : ℚ),
        calculate_crossings E el t0 soi 0 = .error "First SOI crossing not found") ∧
    (∀ (d : ℚ → ℚ) (soi step t0 : ℚ), entryScanCalls d soi step 0 t0 = 0) :=
  ⟨fun _ _ _ _ _ => rfl, fun _ _ _ _ => rfl⟩

/-- C7: if the SOI threshold exceeds the distance at the starting time, the
entry scan triggers on the very first sample (the stop time is the starting
time itself, so zero scan iterations advance the time), and the refined
entry crossing placed at the head of the returned crossing list is the
root-finder's result over `[start - step, start]` with the entry step 20. -/
theorem c7_first_sample_trigger (El : Type) (E : Ephem El) (el : El) (t0 soi : ℚ)
    (fuel : ℕ) (h : distance_from_earth E t0 el < soi) (hf : 0 < fuel) :
    entryScanT (dfeFun E el) soi 20 fuel t0 = some t0 ∧
    (∃ cs mE mD, calculate_crossings E el t0 soi fuel = .ok (cs, mE, mD) ∧
      cs.head? = some (refineCrossing E el soi 20 t0)) ∧
    refineCrossing E el soi 20 t0 =
      E.brentq (fun u => distance_from_earth E u el - soi) (t0 - 20) t0 := by
  obtain ⟨fuel, rfl⟩ : ∃ n, fuel = n + 1 := ⟨fuel - 1, by omega⟩
  have h' : dfeFun E el t0 ≤ soi := le_of_lt h
  have hscan : entryScanT (dfeFun E el) soi 20 (fuel + 1) t0 = some t0 := by
    simp [entryScanT, h']
  refine ⟨hscan, ?_, rfl⟩
  rcases calculate_crossings_cases El E el t0 soi (fuel + 1) t0 hscan with
    ⟨hok, _⟩ | ⟨ts2, _, hok⟩
  · exact ⟨_, _, _, hok, rfl⟩
  · exact ⟨_, _, _, hok, rfl⟩

/-- C5: fitting three samples of the parabola `d(t) = A*(t - t0)^2 + d0`
(`A > 0`) taken at arbitrary pairwise distinct times recovers the vertex
time `t0` exactly; the mean-shift makes the absolute size of the times
irrelevant. -/
theorem c5_quadratic_roundtrip (A t0 d0 t1 t2 t3 : ℚ) (hA : 0 < A)
    (h12 : t1 ≠ t2) (h13 : t1 ≠ t3) (h23 : t2 ≠ t3) :
    quadratic_approximation t1 (A*(t1-t0)^2+d0) t2 (A*(t2-t0)^2+d0) t3 (A*(t3-t0)^2+d0)
      = t0 := by
  simp only [quadratic_approximation]
  have hx21 : t2 - (t1 + t2 + t3) / 3 - (t1 - (t1 + t2 + t3) / 3) = t2 - t1 := by ring
  have hx32 : t3 - (t1 + t2 + t3) / 3 - (t2 - (t1 + t2 + t3) / 3) = t3 - t2 := by ring
  have hx31 : t3 - (t1 + t2 + t3) / 3 - (t1 - (t1 + t2 + t3) / 3) = t3 - t1 := by ring
  have hx12s : t1 - (t1 + t2 + t3) / 3 + (t2 - (t1 + t2 + t3) / 3)
      = t1 + t2 - 2*((t1+t2+t3)/3) := by ring
  rw [hx21, hx32, hx31, hx12s]
  have h21 : t2 - t1 ≠ 0 := sub_ne_zero.mpr (Ne.symm h12)
  have h32 : t3 - t2 ≠ 0 := sub_ne_zero.mpr (Ne.symm h23)
  have h31 : t3 - t1 ≠ 0 := sub_ne_zero.mpr (Ne.symm h13)
  have hs12 : (A * (t2 - t0) ^ 2 + d0 - (A * (t1 - t0) ^ 2 + d0)) / (t2 - t1)
      = A * (t1 + t2 - 2*t0) := by
    rw [div_eq_iff h21]; ring
  have hs23 : (A * (t3 - t0) ^ 2 + d0 - (A * (t2 - t0) ^ 2 + d0)) / (t3 - t2)
      = A * (t2 + t3 - 2*t0) := by
    rw [div_eq_iff h32]; ring
  rw [hs12, hs23]
  have ha : (A * (t2 + t3 - 2*t0) - A * (t1 + t2 - 2*t0)) / (t3 - t1) = A := by
    rw [div_eq_iff h31]; ring
  rw [ha]
  have hA0 : A ≠ 0 := ne_of_gt hA
  field_simp
  ring

/-- C5 witness: three uneven samples of `d(t) = (t - 10^6)^2 + 2` around the
large vertex time `10^6` recover the vertex exactly. -/
theorem c5_quadratic_roundtrip_witness :
    quadratic_approximation 999999 (1*((999999:ℚ)-1000000)^2+2)
      1000001 (1*((1000001:ℚ)-1000000)^2+2)
      1000004 (1*((1000004:ℚ)-1000000)^2+2) = 1000000 :=
  c5_quadratic_roundtrip 1 1000000 2 999999 1000001 1000004 one_pos
    (by norm_num) (by norm_num) (by norm_num)

/-- C7 witness: with `ephC2`, threshold 11 and starting distance 10, the
entry scan triggers on the very first sample. -/
theorem c7_first_sample_trigger_witness :
    entryScanT (dfeFun ephC2 false) 11 20 1 0 = some 0 ∧
    (∃ cs mE mD, calculate_crossings ephC2 false 0 11 1 = .ok (cs, mE, mD) ∧
      cs.head? = some (refineCrossing ephC2 false 11 20 0)) ∧
    refineCrossing ephC2 false 11 20 0 =
      ephC2.brentq (fun u => distance_from_earth ephC2 u false - 11) (0 - 20) 0 :=
  c7_first_sample_trigger Bool ephC2 false 0 11 1 (by with_unfolding_all decide) one_pos

/-- C2 (failing input for the exit side): with `ephC2` the Earth-relative
distance is constantly 5 < 10, so the exit scan exhausts its budget
(`exitScanT ... = none`), yet `calculate_crossings` returns a normal `.ok`
result holding a single crossing — no "crossing not found" error is raised.
The entry side, by contrast, does raise (third conjunct): the cap is not
enforced identically at the two scans. -/
theorem c2_exit_exhaustion_no_error :
    calculate_crossings ephC2 false 0 10 1 =
      .ok ([0], some 0, ((5 : ℚ) : WithTop ℚ)) ∧
    exitScanT (dfeFun ephC2 (elWrtEarth ephC2 false (refineCrossing ephC2 false 10 20 0)))
      10 (interiorFinal ephC2 false 1 (refineCrossing ephC2 false 10 20 0)).step 1
      (interiorFinal ephC2 false 1 (refineCrossing ephC2 false 10 20 0)).t = none ∧
    calculate_crossings ephC2 false 0 1 1 = .error "First SOI crossing not found" := by
  refine ⟨?_, ?_, ?_⟩ <;> with_unfolding_all rfl

/-- C1 (failing input for the exit-scan distance): with `ephC1` the
Earth-centered distance `‖conics(el_e, t)‖` is constantly 5, strictly inside
the SOI radius 10 for every `t`, yet the code's exit scan — which samples
`distance_from_earth` with the Earth-relative element set, i.e. subtracts
Earth's heliocentric position from an already Earth-centered state — sees
the value 10 and reports an exit crossing on its first sample. -/
theorem c1_exit_frame_confusion :
    calculate_crossings ephC1 false 0 10 1 =
      .ok ([0, 0], some 0, ((5 : ℚ) : WithTop ℚ)) ∧
    (∀ t : ℚ, distance_earthCentered ephC1 t true = 5) ∧
    distance_from_earth ephC1 1 true = 10 ∧
    distance_from_earth ephC1 1 true ≠ distance_earthCentered ephC1 1 true := by
  refine ⟨by with_unfolding_all rfl, ?_, by with_unfolding_all rfl,
    by with_unfolding_all decide⟩
  intro t
  with_unfolding_all rfl

/-- C4: while no three-point local minimum has been detected, the fallback
minimum at every iteration boundary of the SOI-interior scan is at most every
raw sample distance seen so far; and if no detection ever occurs within the
budget, the scan's final `min_distance` equals the smallest raw sample
distance and `min_et` is that sample's time (the earliest such sample under
the strict-`<` update). -/
theorem c4_fallback_minimum (d : ℚ → ℚ) (te : ℚ) (fuel : ℕ)
    (hnd : ∀ i, i < fuel → detIterB d te i = false) (hf : 0 < fuel) :
    (∀ k, k ≤ fuel → ∀ j, j < k →
        (interiorLoop d k (initState te)).minD ≤ (d (te + (j : ℚ)) : WithTop ℚ)) ∧
    (∃ j, j < fuel ∧
        (interiorLoop d fuel (initState te)).minD = (d (te + (j : ℚ)) : WithTop ℚ) ∧
        (interiorLoop d fuel (initState te)).minEt = some (te + (j : ℚ)) ∧
        ∀ i, i < fuel →
          (interiorLoop d fuel (initState te)).minD ≤ (d (te + (i : ℚ)) : WithTop ℚ)) ∧
    (∀ (El : Type) (E : Ephem El) (el : El) (t0 soi : ℚ) (cs : List ℚ)
        (mE : Option ℚ) (mD : WithTop ℚ) (ts1 : ℚ),
        entryScanT (dfeFun E el) soi 20 fuel t0 = some ts1 →
        refineCrossing E el soi 20 ts1 = te →
        interiorDist E (elWrtEarth E el te) = d →
        calculate_crossings E el t0 soi fuel = .ok (cs, mE, mD) →
        mE = (interiorLoop d fuel (initState te)).minEt ∧
        mD = (interiorLoop d fuel (initState te)).minD) := by
  refine ⟨?_, ?_, ?_⟩
  · intro k hk j hj
    rw [interiorLoop_nodet_full d te k (fun i hi => hnd i (by omega))]
    exact runMin_le d te k j hj
  · rw [interiorLoop_nodet_full d te fuel hnd]
    obtain ⟨j, hj, h1, h2⟩ := runMin_achieved d te fuel hf
    exact ⟨j, hj, h1, h2, fun i hi => runMin_le d te fuel i hi⟩
  · intro El E el t0 soi cs mE mD ts1 hscan hte hdist hok
    obtain ⟨ts1', hscan', hmE, hmD, _⟩ :=
      calculate_crossings_ok_inv El E el t0 soi fuel cs mE mD hok
    rw [hscan] at hscan'
    obtain rfl : ts1 = ts1' := by injection hscan'
    subst hte
    rw [hmE, hmD]
    constructor <;> simp [interiorFinal, hdist]

/-- Strictly increasing sample distances: no window ever has a middle strict
minimum. -/
def dIncr : ℚ → ℚ := fun t => t + 5

/-- C4 witness: three iterations over strictly increasing samples. -/
theorem c4_fallback_minimum_witness :
    (∀ k : ℕ, k ≤ 3 → ∀ j : ℕ, j < k →
        (interiorLoop dIncr k (initState 0)).minD ≤ (dIncr (0 + (j : ℚ)) : WithTop ℚ)) ∧
    (∃ j : ℕ, j < 3 ∧
        (interiorLoop dIncr 3 (initState 0)).minD = (dIncr (0 + (j : ℚ)) : WithTop ℚ) ∧
        (interiorLoop dIncr 3 (initState 0)).minEt = some (0 + (j : ℚ)) ∧
        ∀ i : ℕ, i < 3 →
          (interiorLoop dIncr 3 (initState 0)).minD ≤ (dIncr (0 + (i : ℚ)) : WithTop ℚ)) ∧
    (∀ (El : Type) (E : Ephem El) (el : El) (t0 soi : ℚ) (cs : List ℚ)
        (mE : Option ℚ) (mD : WithTop ℚ) (ts1 : ℚ),
        entryScanT (dfeFun E el) soi 20 3 t0 = some ts1 →
        refineCrossing E el soi 20 ts1 = 0 →
        interiorDist E (elWrtEarth E el 0) = dIncr →
        calculate_crossings E el t0 soi 3 = .ok (cs, mE, mD) →
        mE = (interiorLoop dIncr 3 (initState 0)).minEt ∧
        mD = (interiorLoop dIncr 3 (initState 0)).minD) :=
  c4_fallback_minimum dIncr 0 3
    (by intro i hi; interval_cases i <;> with_unfolding_all rfl) (by norm_num)

/-- C10: when iteration `j + 2` confirms a three-point strict local minimum,
the returned `min_distance` is set unconditionally to the distance
re-evaluated at the fitted vertex time and `min_et` to that vertex time —
the running fallback minimum is overwritten (even if an earlier raw sample
was strictly smaller), the triggering sample is never folded into the
fallback, the step becomes 10, and the scan resumes at `t_min + 10`. -/
theorem c10_vertex_overwrite (d : ℚ → ℚ) (te : ℚ) (j fuel : ℕ)
    (hpre : ∀ i, i < j + 2 → detIterB d te i = false)
    (hdet : detIterB d te (j + 2) = true) (hlt : j + 2 < fuel) :
    ((interiorLoop d fuel (initState te)).minD = (d (detVertex d te j) : WithTop ℚ) ∧
     (interiorLoop d fuel (initState te)).minEt = some (detVertex d te j) ∧
     (interiorLoop d fuel (initState te)).step = 10 ∧
     (interiorLoop d fuel (initState te)).t = detVertex d te j + 10) ∧
    (∀ (El : Type) (E : Ephem El) (el : El) (t0 soi : ℚ) (cs : List ℚ)
        (mE : Option ℚ) (mD : WithTop ℚ) (ts1 : ℚ),
        entryScanT (dfeFun E el) soi 20 fuel t0 = some ts1 →
        refineCrossing E el soi 20 ts1 = te →
        interiorDist E (elWrtEarth E el te) = d →
        calculate_crossings E el t0 soi fuel = .ok (cs, mE, mD) →
        mE = some (detVertex d te j) ∧ mD = (d (detVertex d te j) : WithTop ℚ)) := by
  have hfin := interiorLoop_det d te j fuel hpre hdet hlt
  constructor
  · rw [hfin]
    exact ⟨rfl, rfl, rfl, rfl⟩
  · intro El E el t0 soi cs mE mD ts1 hscan hte hdist hok
    obtain ⟨ts1', hscan', hmE, hmD, _⟩ :=
      calculate_crossings_ok_inv El E el t0 soi fuel cs mE mD hok
    rw [hscan] at hscan'
    obtain rfl : ts1 = ts1' := by injection hscan'
    subst hte
    have hIF : interiorFinal E el fuel (refineCrossing E el soi 20 ts1) =
        interiorLoop d fuel (initState (refineCrossing E el soi 20 ts1)) := by
      simp [interiorFinal, hdist]
    rw [hmE, hmD, hIF, hfin]
    exact ⟨rfl, rfl⟩

/-- Sample distances 1, 5, 3, 4, then 2 everywhere else: the first sample
(distance 1) is the smallest raw sample, yet a local minimum is detected on
the window (5, 3, 4) and the re-evaluated vertex distance 2 overwrites it. -/
def d10 : ℚ → ℚ := fun t =>
  if t = 0 then 1 else if t = 1 then 5 else if t = 2 then 3 else if t = 3 then 4 else 2

/-- C10 witness: the detection at iteration 3 overwrites the fallback
minimum 1 (from the first sample) with the vertex distance 2. -/
theorem c10_vertex_overwrite_witness :
    (((interiorLoop d10 5 (initState 0)).minD = (d10 (detVertex d10 0 1) : WithTop ℚ) ∧
      (interiorLoop d10 5 (initState 0)).minEt = some (detVertex d10 0 1) ∧
      (interiorLoop d10 5 (initState 0)).step = 10 ∧
      (interiorLoop d10 5 (initState 0)).t = detVertex d10 0 1 + 10) ∧
     (∀ (El : Type) (E : Ephem El) (el : El) (t0 soi : ℚ) (cs : List ℚ)
        (mE : Option ℚ) (mD : WithTop ℚ) (ts1 : ℚ),
        entryScanT (dfeFun E el) soi 20 5 t0 = some ts1 →
        refineCrossing E el soi 20 ts1 = 0 →
        interiorDist E (elWrtEarth E el 0) = d10 →
        calculate_crossings E el t0 soi 5 = .ok (cs, mE, mD) →
        mE = some (detVertex d10 0 1) ∧ mD = (d10 (detVertex d10 0 1) : WithTop ℚ))) ∧
    d10 0 = 1 ∧ d10 (detVertex d10 0 1) = 2 ∧ (1 : ℚ) < 2 :=
  ⟨c10_vertex_overwrite d10 0 1 5
      (by intro i hi; interval_cases i <;> with_unfolding_all rfl)
      (by with_unfolding_all rfl) (by norm_num),
   by with_unfolding_all rfl, by with_unfolding_all rfl, by norm_num⟩

/-- C6: the entry scan stops at the first sampled time with distance at or
below the threshold, the exit scan at the first sampled time with distance
at or above it; the refinement of either stop is the bracketed root-finder
applied to `distance(t) - threshold` over `[t - step, t]`; and every
successful run's crossing list consists of exactly these refined values. -/
theorem c6_stop_and_refine :
    (∀ (d : ℚ → ℚ) (soi step : ℚ) (fuel : ℕ) (t0 ts : ℚ),
        entryScanT d soi step fuel t0 = some ts →
          d ts ≤ soi ∧ ∃ i, i < fuel ∧ ts = t0 + (i : ℚ) * step ∧
            ∀ j, j < i → soi < d (t0 + (j : ℚ) * step)) ∧
    (∀ (d : ℚ → ℚ) (soi step : ℚ) (fuel : ℕ) (t0 ts : ℚ),
        exitScanT d soi step fuel t0 = some ts →
          soi ≤ d ts ∧ ∃ i, i < fuel ∧ ts = t0 + (i : ℚ) * step ∧
            ∀ j, j < i → d (t0 + (j : ℚ) * step) < soi) ∧
    (∀ (El : Type) (E : Ephem El) (el : El) (soi step ts : ℚ),
        refineCrossing E el soi step ts =
          E.brentq (fun u => distance_from_earth E u el - soi) (ts - step) ts) ∧
    (∀ (El : Type) (E : Ephem El) (el : El) (t0 soi : ℚ) (fuel : ℕ)
        (cs : List ℚ) (mE : Option ℚ) (mD : WithTop ℚ),
        calculate_crossings E el t0 soi fuel = .ok (cs, mE, mD) →
          ∃ ts1, entryScanT (dfeFun E el) soi 20 fuel t0 = some ts1 ∧
            (cs = [refineCrossing E el soi 20 ts1] ∨
             ∃ ts2, exitScanT (dfeFun E (elWrtEarth E el (refineCrossing E el soi 20 ts1)))
                 soi (interiorFinal E el fuel (refineCrossing E el soi 20 ts1)).step fuel
                 (interiorFinal E el fuel (refineCrossing E el soi 20 ts1)).t = some ts2 ∧
               cs = [refineCrossing E el soi 20 ts1,
                     refineCrossing E (elWrtEarth E el (refineCrossing E el soi 20 ts1)) soi
                       (interiorFinal E el fuel (refineCrossing E el soi 20 ts1)).step ts2])) := by
  refine ⟨?_, ?_, ?_, ?_⟩
  · intro d soi step fuel t0 ts h
    obtain ⟨i, hi, heq, hle, hfirst⟩ := entryScanT_first d soi step fuel t0 ts h
    exact ⟨hle, i, hi, heq, hfirst⟩
  · intro d soi step fuel t0 ts h
    obtain ⟨i, hi, heq, hle, hfirst⟩ := exitScanT_first d soi step fuel t0 ts h
    exact ⟨hle, i, hi, heq, hfirst⟩
  · intro El E el soi step ts; rfl
  · intro El E el t0 soi fuel cs mE mD h
    obtain ⟨ts1, hscan, _, _, hcs⟩ := calculate_crossings_ok_inv El E el t0 soi fuel cs mE mD h
    exact ⟨ts1, hscan, hcs⟩

/-- Entry-scan sample distances for the C6 witness. -/
def dW : ℚ → ℚ := fun t => 30 - t

/-- Exit-scan sample distances for the C6 witness. -/
def dExit : ℚ → ℚ := fun t => t

/-- C6 witness: the entry scan over `dW` (30, 10, ...) stops at its second
sample, the exit scan over `dExit` (9, 10, ...) at its second sample. -/
theorem c6_stop_and_refine_witness :
    (dW 20 ≤ 10 ∧ ∃ i : ℕ, i < 2 ∧ (20 : ℚ) = 0 + (i : ℚ) * 20 ∧
      ∀ j : ℕ, j < i → 10 < dW (0 + (j : ℚ) * 20)) ∧
    ((10 : ℚ) ≤ dExit 10 ∧ ∃ i : ℕ, i < 2 ∧ (10 : ℚ) = 9 + (i : ℚ) * 1 ∧
      ∀ j : ℕ, j < i → dExit (9 + (j : ℚ) * 1) < 10) :=
  ⟨c6_stop_and_refine.1 dW 10 20 2 0 20 (by with_unfolding_all rfl),
   c6_stop_and_refine.2.1 dExit 10 1 2 9 10 (by with_unfolding_all rfl)⟩

/-- C8: before any step-size change (no detection through iteration `k`),
the window at entry to iteration `k` is exactly the last at-most-two
samples, the window immediately after appending the fresh sample has length
at most 3 with strictly increasing times evenly spaced by the current step,
and when that appended window is full the next iteration's window is its
tail — the oldest sample is the one evicted. -/
theorem c8_window_fifo (d : ℚ → ℚ) (te : ℚ) (k : ℕ)
    (hnd : ∀ i, i ≤ k → detIterB d te i = false) :
    (interiorLoop d k (initState te)).bracket = windowPrev d te k ∧
    ((interiorLoop d k (initState te)).bracket
        ++ [(te + (k : ℚ), d (te + (k : ℚ)))]).length ≤ 3 ∧
    List.Chain' (fun p q : ℚ × ℚ =>
        q.1 = p.1 + (interiorLoop d k (initState te)).step ∧ p.1 < q.1)
      ((interiorLoop d k (initState te)).bracket
        ++ [(te + (k : ℚ), d (te + (k : ℚ)))]) ∧
    (((interiorLoop d k (initState te)).bracket
        ++ [(te + (k : ℚ), d (te + (k : ℚ)))]).length = 3 →
      (interiorLoop d (k + 1) (initState te)).bracket =
        ((interiorLoop d k (initState te)).bracket
          ++ [(te + (k : ℚ), d (te + (k : ℚ)))]).tail) := by
  have hk := interiorLoop_nodet_full d te k (fun i hi => hnd i (by omega))
  have hk1 := interiorLoop_nodet_full d te (k + 1) (fun i hi => hnd i (by omega))
  rw [hk, hk1]
  match k with
  | 0 => simp [stateAfter, windowPrev]
  | 1 =>
    refine ⟨rfl, by simp [stateAfter, windowPrev], ?_, ?_⟩
    · simp [stateAfter, windowPrev]
    · intro hlen
      simp [stateAfter, windowPrev] at hlen
  | j + 2 =>
    have hidx : j + 2 + 1 = (j + 1) + 2 := by omega
    rw [hidx]
    refine ⟨rfl, by simp [stateAfter, windowPrev], ?_, ?_⟩
    · simp [stateAfter, windowPrev]
      exact ⟨by ring, by linarith⟩
    · intro _
      simp [stateAfter, windowPrev]
      refine ⟨⟨by ring, ?_⟩, by ring, ?_⟩ <;> · congr 1; ring

/-- C8 witness: two non-detecting iterations over strictly increasing
samples, plus the eviction at the third. -/
theorem c8_window_fifo_witness :
    (interiorLoop dIncr 2 (initState 0)).bracket = windowPrev dIncr 0 2 ∧
    ((interiorLoop dIncr 2 (initState 0)).bracket
        ++ [(0 + ((2 : ℕ) : ℚ), dIncr (0 + ((2 : ℕ) : ℚ)))]).length ≤ 3 ∧
    List.Chain' (fun p q : ℚ × ℚ =>
        q.1 = p.1 + (interiorLoop dIncr 2 (initState 0)).step ∧ p.1 < q.1)
      ((interiorLoop dIncr 2 (initState 0)).bracket
        ++ [(0 + ((2 : ℕ) : ℚ), dIncr (0 + ((2 : ℕ) : ℚ)))]) ∧
    (((interiorLoop dIncr 2 (initState 0)).bracket
        ++ [(0 + ((2 : ℕ) : ℚ), dIncr (0 + ((2 : ℕ) : ℚ)))]).length = 3 →
      (interiorLoop dIncr (2 + 1) (initState 0)).bracket =
        ((interiorLoop dIncr 2 (initState 0)).bracket
          ++ [(0 + ((2 : ℕ) : ℚ), dIncr (0 + ((2 : ℕ) : ℚ)))]).tail) :=
  c8_window_fifo dIncr 0 2 (by intro i hi; interval_cases i <;> with_unfolding_all rfl)

/-- C3 counterexample: a run of `calculate_crossings` (with a root-finder
that, like scipy's `brentq`, returns a bracket endpoint where the function
vanishes) in which both crossings and a closest approach are found, yet
entry time, closest-approach time and exit time are all equal to 0 — the
strict ordering `entry < approach < exit` fails at both inequalities. -/
theorem c3_strict_ordering_counterexample :
    calculate_crossings ephC3 false 0 10 1 =
      .ok ([0, 0], some 0, ((5 : ℚ) : WithTop ℚ)) ∧
    ¬ ((0 : ℚ) < 0) :=
  ⟨by with_unfolding_all rfl, by norm_num⟩

/-- C3 amended: under the bracketed root-finder contract (the returned root
lies within the bracket), every successful run with both crossings and a
recorded closest approach satisfies the non-strict ordering
`entry time ≤ approach time ≤ exit time`. -/
theorem c3_ordering_amended (El : Type) (E : Ephem El) (el : El) (t0 soi : ℚ)
    (fuel : ℕ)
    (hbr : ∀ (f : ℚ → ℚ) (a b : ℚ), a ≤ b → a ≤ E.brentq f a b ∧ E.brentq f a b ≤ b)
    (te tx ta : ℚ) (mD : WithTop ℚ)
    (h : calculate_crossings E el t0 soi fuel = .ok ([te, tx], some ta, mD)) :
    te ≤ ta ∧ ta ≤ tx := by
  obtain ⟨ts1, hscan, hmE, hmD, hcs⟩ :=
    calculate_crossings_ok_inv El E el t0 soi fuel [te, tx] (some ta) mD h
  rcases hcs with hcs | ⟨ts2, hexit, hcs⟩
  · simp at hcs
  · simp only [List.cons.injEq, List.cons_ne_nil, and_true] at hcs
    obtain ⟨hte, htx⟩ := hcs
    have hW : IntInvW (refineCrossing E el soi 20 ts1)
        (interiorFinal E el fuel (refineCrossing E el soi 20 ts1)) :=
      interiorLoop_inv _ _ fuel _ (initState_inv (refineCrossing E el soi 20 ts1))
    have hstep : 0 < (interiorFinal E el fuel (refineCrossing E el soi 20 ts1)).step :=
      hW.1
    have hta := hW.2 ta hmE.symm
    have hge : (interiorFinal E el fuel (refineCrossing E el soi 20 ts1)).t ≤ ts2 :=
      exitScanT_ge _ soi _ (le_of_lt hstep) fuel _ ts2 hexit
    have hbrx := hbr (fun u =>
        distance_from_earth E u (elWrtEarth E el (refineCrossing E el soi 20 ts1)) - soi)
      (ts2 - (interiorFinal E el fuel (refineCrossing E el soi 20 ts1)).step) ts2
      (by linarith)
    constructor
    · rw [hte]; exact hta.1
    · rw [htx]
      have : ts2 - (interiorFinal E el fuel (refineCrossing E el soi 20 ts1)).step ≤
          refineCrossing E (elWrtEarth E el (refineCrossing E el soi 20 ts1)) soi
            (interiorFinal E el fuel (refineCrossing E el soi 20 ts1)).step ts2 := hbrx.1
      linarith [hta.2]

/-- `brentqModel` satisfies the bracketed root-finder contract. -/
theorem brentqModel_mem (f : ℚ → ℚ) (a b : ℚ) (hab : a ≤ b) :
    a ≤ brentqModel f a b ∧ brentqModel f a b ≤ b := by
  unfold brentqModel
  split_ifs <;> constructor <;> linarith

/-- C3 amended witness: the `ephC3` run satisfies the hypotheses and has
entry = approach = exit = 0. -/
theorem c3_ordering_amended_witness : (0 : ℚ) ≤ 0 ∧ (0 : ℚ) ≤ 0 :=
  c3_ordering_amended Bool ephC3 false 0 10 1
    (fun f a b hab => brentqModel_mem f a b hab) 0 0 0 ((5 : ℚ) : WithTop ℚ)
    (by with_unfolding_all rfl)
